import Mathlib

/-!
Shallow embedding of `src/blocks/xrandr.rs` (the xrandr block of
i3status-rust): the monitor data model, the two text parsers
(`get_active_monitors`, `get_monitor_metrics`), the brightness controller
(`Monitor::set_brightness`), the refresh tick (`Block::update`) and the
click handler (`Block::click`).

Modelling conventions:
- Rust `String`/`&str` values are Lean `String`s; the parsing functions
  work on `List Char` (`String.data`) so that splitting and searching are
  plain structural recursion.
- `u32` is `Nat`, `i32`/`usize` arithmetic that can wrap is made explicit:
  the `as i32`/`as u32` cast chain of `set_brightness` is modelled with
  wrapping integer arithmetic, and the `usize` subtraction
  `monitors.len() - 1` of the click handler is modelled as a checked
  subtraction returning `none` on underflow (in a debug build Rust panics
  there; in a release build it wraps).
- `f32` values are modelled as exact rationals together with an explicit
  round-to-nearest-even operation on a 24-bit significand (`roundF32`),
  applied after decimal parsing and after multiplication, matching IEEE-754
  binary32 behaviour for the normal range used here (no overflow,
  subnormals or NaN arise for the inputs considered).
- The external `regex` crate (an external dependency, not part of this
  repository) is modelled by a fragment of its documented semantics that
  the patterns built here exercise: `.` matches any character, every other
  character matches literally, a pattern with an unbalanced parenthesis is
  invalid and makes `RegexSet::new` fail.  `RegexSet::is_match` is "some
  pattern matches somewhere in the line".
- The external process invocations are out of scope (per the spec they are
  collaborators): the parsers take the raw command output text as input,
  and `spawn_child_async` in `set_brightness` is modelled by returning the
  dispatched command (`BrightnessCmd`) to the caller.
- Rendering (`display`) only reads state and writes to the text widget; it
  never touches `monitors`, `current_idx` or `step_width`, so it is not
  modelled.
-/

/-- `String.data` shorthand: the character list of a string. -/
def toL (s : String) : List Char := s.data

/-- Accumulator form of Rust `str::split(c)`: splits at every occurrence of
`c`, keeping empty pieces (so the result is always non-empty). -/
def splitOnAux (c : Char) : List Char → List Char → List (List Char)
  | [], acc => [acc.reverse]
  | x :: xs, acc =>
    if x = c then acc.reverse :: splitOnAux c xs []
    else splitOnAux c xs (x :: acc)

/-- Rust `str::split(c)` on a character list. -/
def splitOnChar (c : Char) (l : List Char) : List (List Char) :=
  splitOnAux c l []

/-- Accumulator form of Rust `str::split_whitespace`: splits at runs of
whitespace, producing no empty tokens. -/
def splitWsAux : List Char → List Char → List (List Char)
  | [], acc => if acc.isEmpty then [] else [acc.reverse]
  | x :: xs, acc =>
    if x.isWhitespace then
      if acc.isEmpty then splitWsAux xs []
      else acc.reverse :: splitWsAux xs []
    else splitWsAux xs (x :: acc)

/-- Rust `str::split_whitespace` on a character list. -/
def splitWs (l : List Char) : List (List Char) :=
  splitWsAux l []

/-- Rust `str::trim`: strip leading and trailing whitespace. -/
def trimL (l : List Char) : List Char :=
  ((l.dropWhile Char.isWhitespace).reverse.dropWhile Char.isWhitespace).reverse

/-- The substring of a token before its first `+` (used for the resolution
part of a geometry token such as `1920x1080+0+0`). -/
def beforePlus (l : List Char) : List Char :=
  l.takeWhile (fun c => !(c = '+'))

/-! ## Fragment model of the `regex` crate (external dependency)

`get_monitor_metrics` interpolates each monitor name into the pattern
`"{name} connected"` and compiles the patterns with `RegexSet::new`.  The
fragment modelled here: `.` matches any character, any other character
matches itself, and a pattern containing an unbalanced parenthesis is a
syntax error (`RegexSet::new` returns `Err`, which the code maps to the
block error "invalid monitor name"). -/

/-- One pattern character against one text character: `.` is the wildcard,
everything else is literal. -/
def charMatches (p c : Char) : Bool := p = '.' || p = c

/-- The pattern matches at the very start of the text. -/
def matchesFront : List Char → List Char → Bool
  | [], _ => true
  | _ :: _, [] => false
  | p :: ps, c :: cs => charMatches p c && matchesFront ps cs

/-- Unanchored regex search: the pattern matches starting at some position
of the text (what `RegexSet::is_match` checks per pattern). -/
def regexSearch (p : List Char) : List Char → Bool
  | [] => matchesFront p []
  | c :: cs => matchesFront p (c :: cs) || regexSearch p cs

/-- Exact (literal) match at the very start of the text. -/
def litFront : List Char → List Char → Bool
  | [], _ => true
  | _ :: _, [] => false
  | p :: ps, c :: cs => (p = c) && litFront ps cs

/-- Literal substring search: `p` occurs contiguously somewhere in the text. -/
def litOccurs (p : List Char) : List Char → Bool
  | [] => litFront p []
  | c :: cs => litFront p (c :: cs) || litOccurs p cs

/-- Parenthesis balance check with an open-parenthesis counter. -/
def parensOkAux : List Char → Nat → Bool
  | [], d => d == 0
  | x :: xs, d =>
    if x = '(' then parensOkAux xs (d + 1)
    else if x = ')' then
      match d with
      | 0 => false
      | e + 1 => parensOkAux xs e
    else parensOkAux xs d

/-- A pattern is syntactically valid in the modelled fragment iff its
parentheses are balanced. -/
def regexOk (p : List Char) : Bool := parensOkAux p 0

/-- The regex metacharacters of the crate's syntax; a name made only of
other characters is interpolated into a pattern purely literally. -/
def regexMetaChars : List Char :=
  ['.', '+', '*', '?', '(', ')', '[', ']', '\x7b', '\x7d', '|', '^', '$', '\\']

/-! ## Fragment model of `f32` (exact fractions plus explicit rounding)

An `f32` value is represented by an exact fraction `Frac` (numerator over
denominator, not reduced — no gcd, so every operation is plain integer
arithmetic the kernel can evaluate).  Every `Frac` built below has a
positive denominator: the parser produces denominators `1` or `10^k`, and
the arithmetic only ever multiplies denominators by powers of two. -/

/-- An exact fraction `num / den`; all fractions constructed in this file
have `0 < den`. -/
structure Frac where
  num : Int
  den : Int
deriving DecidableEq

/-- `⌊q⌋` for a fraction with positive denominator (`Int.ediv` rounds
toward negative infinity for a positive divisor). -/
def fracFloor (q : Frac) : Int := Int.ediv q.num q.den

/-- Round a fraction (positive denominator) to the nearest integer, ties
to even: `r2` is twice the fractional part, scaled by the denominator. -/
def roundNearestEven (q : Frac) : Int :=
  let f := fracFloor q
  let r2 := 2 * (q.num - f * q.den)
  if r2 < q.den then f
  else if q.den < r2 then f + 1
  else if f % 2 = 0 then f else f + 1

/-- Multiply a fraction by an integer power of two. -/
def mulPow2 (q : Frac) (s : Int) : Frac :=
  if 0 ≤ s then ⟨q.num * 2 ^ s.toNat, q.den⟩ else ⟨q.num, q.den * 2 ^ (-s).toNat⟩

/-- Fuel-based binary logarithm (the fuel `n` itself bounds the recursion
depth), structurally recursive so the kernel can evaluate it. -/
def natLog2Aux : Nat → Nat → Nat
  | 0, _ => 0
  | fuel + 1, n => if n ≤ 1 then 0 else natLog2Aux fuel (n / 2) + 1

/-- `⌊log₂ n⌋` (0 for 0). -/
def natLog2 (n : Nat) : Nat := natLog2Aux n n

/-- `⌊log₂ q⌋` for a positive fraction, computed from the bit lengths of
numerator and denominator and corrected by one comparison. -/
def floorLog2 (q : Frac) : Int :=
  let e0 : Int := (natLog2 q.num.toNat : Int) - (natLog2 q.den.toNat : Int)
  let t := mulPow2 q (-e0)
  if t.den ≤ t.num then e0 else e0 - 1

/-- Round a positive fraction to the nearest `f32` value (24-bit
significand, round to nearest, ties to even; exponent unbounded, which
agrees with `f32` on the normal range used here). -/
def roundF32Pos (q : Frac) : Frac :=
  let s : Int := 23 - floorLog2 q
  mulPow2 ⟨roundNearestEven (mulPow2 q s), 1⟩ (-s)

/-- Round a fraction to the nearest `f32` value. -/
def roundF32 (q : Frac) : Frac :=
  if q.num = 0 then ⟨0, 1⟩
  else if 0 < q.num then roundF32Pos q
  else
    let r := roundF32Pos ⟨-q.num, q.den⟩
    ⟨-r.num, r.den⟩

/-- Exact product of two fractions. -/
def fracMul (a b : Frac) : Frac := ⟨a.num * b.num, a.den * b.den⟩

/-- `f32` multiplication: exact product, rounded. -/
def mulF32 (a b : Frac) : Frac := roundF32 (fracMul a b)

/-- Numeric value of one decimal digit. -/
def digitVal (c : Char) : Nat := c.toNat - ('0').toNat

/-- The number denoted by a list of decimal digits. -/
def natOfDigits (l : List Char) : Nat :=
  l.foldl (fun a c => a * 10 + digitVal c) 0

/-- Exact fraction denoted by an unsigned decimal literal
(`digits`, `digits.digits`, `digits.` or `.digits`), the mantissa grammar
of Rust's `f32::from_str`; other forms (exponents, `inf`, `NaN`) are
outside the modelled fragment and yield `none`. -/
def parseMantissa (l : List Char) : Option Frac :=
  let ip := l.takeWhile Char.isDigit
  let rest := l.dropWhile Char.isDigit
  match rest with
  | [] => if ip.isEmpty then none else some ⟨(natOfDigits ip : Int), 1⟩
  | '.' :: fp =>
    if fp.all Char.isDigit && !(ip.isEmpty && fp.isEmpty) then
      some ⟨(natOfDigits ip : Int) * 10 ^ fp.length + (natOfDigits fp : Int),
            (10 : Int) ^ fp.length⟩
    else none
  | _ => none

/-- Rust `f32::from_str` on the modelled fragment: optional sign, decimal
mantissa, correctly rounded to `f32`. -/
def parseF32val (l : List Char) : Option Frac :=
  match l with
  | '-' :: rest => (parseMantissa rest).map (fun q => roundF32 ⟨-q.num, q.den⟩)
  | '+' :: rest => (parseMantissa rest).map roundF32
  | _ => (parseMantissa l).map roundF32

/-- Rust `(x).floor() as u32` for an `f32` `x`: `floor` is exact on `f32`
(every `f32` of magnitude at least `2^23` is already an integer), and the
`as u32` cast saturates below at `0` and above at `2^32 - 1`. -/
def f32FloorToU32 (x : Frac) : Nat :=
  if x.num < 0 then 0 else min (fracFloor x).toNat (2 ^ 32 - 1)

/-! ## The data model (`Monitor`, `Xrandr`) and the brightness controller -/

/-- `struct Monitor` of `xrandr.rs`: one physical output. -/
structure Monitor where
  name : String
  brightness : Nat
  resolution : String
deriving DecidableEq

/-- The state-carrying fields of `struct Xrandr` (the widget, timer and
config fields are render-only collaborators and carry no parsing or
selection state). -/
structure Xrandr where
  monitors : List Monitor
  current_idx : Nat
  step_width : Nat
deriving DecidableEq

/-- `XrandrConfig::step_width` handling in `ConfigBlock::new`: values over
50 are clamped to 50. -/
def clampStep (w : Nat) : Nat := if w > 50 then 50 else w

/-- Rust `u32 as i32` (wrapping reinterpretation). -/
def u32toI32 (b : Nat) : Int := if b < 2 ^ 31 then (b : Int) else (b : Int) - 2 ^ 32

/-- `i32` addition with release-mode wrapping semantics. -/
def i32addWrap (a b : Int) : Int := (a + b + 2 ^ 31) % 2 ^ 32 - 2 ^ 31

/-- Rust `i32 as u32` (wrapping reinterpretation). -/
def i32toU32 (v : Int) : Nat := (v % 2 ^ 32).toNat

/-- The brightness-change instruction handed to the process-spawning
collaborator by `set_brightness` (target output and signed step). -/
structure BrightnessCmd where
  target : String
  step : Int
deriving DecidableEq

/-- `Monitor::set_brightness`: dispatch the asynchronous xrandr call
(modelled as the returned `BrightnessCmd`) and speculatively update the
cached brightness through the `as i32`/`as u32` cast chain. -/
def setBrightness (m : Monitor) (step : Int) : Monitor × BrightnessCmd :=
  ({ m with brightness := i32toU32 (i32addWrap (u32toI32 m.brightness) step) },
   ⟨m.name, step⟩)

/-! ## The two parsers -/

/-- `Xrandr::get_active_monitors`, pure part: split the listing on
newlines; every line with at least one whitespace token contributes its
last token (`split_last` binds the vector's last element first); the result
is `none` when no name was extracted. -/
def getActiveMonitors (text : String) : Option (List String) :=
  let names := (splitOnChar '\n' text.data).filterMap
    (fun l => ((splitWs l).getLast?).map String.mk)
  if names.isEmpty then none else some names

/-- The patterns handed to `RegexSet::new`: `"{name} connected"` for every
active name, then the literal `"Brightness:"`. -/
def mkPatterns (names : List (List Char)) : List (List Char) :=
  names.map (fun n => n ++ (" connected").data) ++ [("Brightness:").data]

/-- All patterns compile (`RegexSet::new` succeeds) in the modelled
fragment. -/
def patternsOk (names : List (List Char)) : Bool :=
  (mkPatterns names).all regexOk

/-- `regex_set.is_match(l)`: some pattern matches somewhere in the line. -/
def lineKept (names : List (List Char)) (l : List Char) : Bool :=
  (mkPatterns names).any (fun p => regexSearch p l)

/-- The filtered diagnostic lines, in original order. -/
def keptLines (names : List (List Char)) (text : String) : List (List Char) :=
  (splitOnChar '\n' text.data).filter (fun l => lineKept names l)

/-- Rust `chunks_exact(2)`: consecutive non-overlapping pairs, a trailing
odd element dropped. -/
def chunksExact2 {α : Type} : List α → List (α × α)
  | a :: b :: rest => (a, b) :: chunksExact2 rest
  | _ => []

/-- The brightness part of one header/brightness pair: `brightness` starts
at 0; if the header line has a first whitespace token and the second line
has a second `:`-field, that field is trimmed and parsed as `f32` (a parse
failure is the hard error "unable to parse brightness"), multiplied by
100.0, floored and cast to `u32`. -/
def brightnessStage (miLine bLine : List Char) : Except String Nat :=
  match (splitWs miLine)[0]? with
  | none => .ok 0
  | some _ =>
    match (splitOnChar ':' bLine)[1]? with
    | none => .ok 0
    | some raw =>
      match parseF32val (trimL raw) with
      | none => .error "unable to parse brightness"
      | some v => .ok (f32FloorToU32 (mulF32 v ⟨100, 1⟩))

/-- One header/brightness pair of the extractor loop: the brightness stage
first (its error aborts the pair), then the geometry lookup — token 2 if it
contains `+`, else token 3 (`unwrap_or_continue` skips the pair when token
3 is absent, yielding `none`), the resolution being the part of the chosen
token before its first `+`. -/
def processPair (miLine bLine : List Char) : Except String (Option Monitor) :=
  match brightnessStage miLine bLine with
  | .error e => .error e
  | .ok brightness =>
    let args := splitWs miLine
    let display := match args[0]? with
      | some n => trimL n
      | none => []
    match args[2]? with
    | none => .ok none
    | some r0 =>
      match (if r0.contains '+' then some r0 else args[3]?) with
      | none => .ok none
      | some res =>
        match (splitOnChar '+' res)[0]? with
        | none => .ok none
        | some resolution =>
          .ok (some ⟨String.mk display, brightness, String.mk (trimL resolution)⟩)

/-- The extractor loop over all pairs: a pair's error aborts the whole
extraction, a skipped pair contributes nothing, records keep pair order. -/
def processPairs : List (List Char × List Char) → Except String (List Monitor)
  | [] => .ok []
  | p :: rest =>
    match processPair p.1 p.2 with
    | .error e => .error e
    | .ok none => processPairs rest
    | .ok (some m) =>
      match processPairs rest with
      | .error e => .error e
      | .ok ms => .ok (m :: ms)

/-- `Xrandr::get_monitor_metrics`, pure part: build the patterns (an
invalid one is the error "invalid monitor name"), filter the diagnostic
lines, pair them with `chunks_exact(2)`, process every pair; the result is
`none` when no record was assembled. -/
def getMonitorMetrics (monitor_names : List String) (text : String) :
    Except String (Option (List Monitor)) :=
  let names := monitor_names.map String.data
  if patternsOk names then
    match processPairs (chunksExact2 (keptLines names text)) with
    | .error e => .error e
    | .ok ms => if ms.isEmpty then .ok none else .ok (some ms)
  else .error "invalid monitor name"

/-! ## The refresh tick and the click handler -/

/-- `Block::update`, with the two external command outputs passed in as
text: the monitor list is replaced only when the lister yields names and
the extractor yields records; an extraction error is returned to the
scheduler with the state untouched (the second component is the error). -/
def update (activeText verboseText : String) (s : Xrandr) :
    Xrandr × Option String :=
  match getActiveMonitors activeText with
  | none => (s, none)
  | some am =>
    match getMonitorMetrics am verboseText with
    | .error e => (s, some e)
    | .ok none => (s, none)
    | .ok (some mm) => ({ s with monitors := mm }, none)

/-- The logical scroll direction of `crate::config::LogicalDirection`. -/
inductive LogicalDirection where
  | up
  | down
deriving DecidableEq

/-- A click on this widget: the left button, or any other button already
resolved through `config.scrolling.to_logical_direction`. -/
inductive ClickButton where
  | left
  | scroll (d : Option LogicalDirection)
deriving DecidableEq

/-- Rust `usize` subtraction of 1 as written in the click handler
(`self.monitors.len() - 1`): `none` models the underflow (a panic in debug
builds, a wrap to `2^64 - 1` in release builds). -/
def usizeSub1 (n : Nat) : Option Nat := if n = 0 then none else some (n - 1)

/-- `Block::click` for an event that matches this widget's id: the left
button advances `current_idx` (wrapping to 0 from the last index, with the
unguarded `len - 1` subtraction); a scroll direction adjusts the selected
monitor's brightness by `step_width` when the bound check passes; the
dispatched command, if any, is returned alongside the new state. -/
def click (s : Xrandr) : ClickButton → Option (Xrandr × Option BrightnessCmd)
  | .left =>
    match usizeSub1 s.monitors.length with
    | none => none
    | some lastIdx =>
      if s.current_idx < lastIdx then
        some ({ s with current_idx := s.current_idx + 1 }, none)
      else
        some ({ s with current_idx := 0 }, none)
  | .scroll (some .up) =>
    match s.monitors[s.current_idx]? with
    | some m =>
      if m.brightness ≤ 100 - s.step_width then
        let r := setBrightness m ((s.step_width : Int))
        some ({ s with monitors := s.monitors.set s.current_idx r.1 }, some r.2)
      else some (s, none)
    | none => some (s, none)
  | .scroll (some .down) =>
    match s.monitors[s.current_idx]? with
    | some m =>
      if s.step_width ≤ m.brightness then
        let r := setBrightness m (-(s.step_width : Int))
        some ({ s with monitors := s.monitors.set s.current_idx r.1 }, some r.2)
      else some (s, none)
    | none => some (s, none)
  | .scroll none => some (s, none)

/-! ## Helper lemmas on the splitting utilities -/

theorem splitOnAux_ne_nil (c : Char) (l acc : List Char) : splitOnAux c l acc ≠ [] := by
  induction l generalizing acc with
  | nil => simp [splitOnAux]
  | cons x xs ih =>
    simp only [splitOnAux]
    split
    · simp
    · exact ih _

theorem splitOnAux_head (c : Char) (l acc : List Char) :
    (splitOnAux c l acc).head? =
      some (acc.reverse ++ l.takeWhile (fun x => !(x = c))) := by
  induction l generalizing acc with
  | nil => simp [splitOnAux]
  | cons x xs ih =>
    simp only [splitOnAux, List.takeWhile_cons]
    by_cases h : x = c
    · simp [h]
    · simp [h, ih (x :: acc)]

theorem splitOnChar_head (c : Char) (l : List Char) :
    (splitOnChar c l)[0]? = some (l.takeWhile (fun x => !(x = c))) := by
  have h := splitOnAux_head c l []
  rw [List.head?_eq_getElem?] at h
  simpa [splitOnChar] using h

theorem splitWsAux_tokens (l : List Char) :
    ∀ (acc : List Char), (∀ a ∈ acc, a.isWhitespace = false) →
      ∀ t ∈ splitWsAux l acc, ∀ a ∈ t, a.isWhitespace = false := by
  induction l with
  | nil =>
    intro acc hacc t ht a ha
    simp only [splitWsAux] at ht
    split at ht
    · simp at ht
    · simp only [List.mem_singleton] at ht
      subst ht
      exact hacc a (List.mem_reverse.mp ha)
  | cons x xs ih =>
    intro acc hacc t ht a ha
    simp only [splitWsAux] at ht
    by_cases hw : x.isWhitespace
    · simp only [hw, if_true] at ht
      split at ht
      · exact ih [] (by simp) t ht a ha
      · rcases List.mem_cons.mp ht with rfl | ht'
        · exact hacc a (List.mem_reverse.mp ha)
        · exact ih [] (by simp) t ht' a ha
    · simp only [hw, if_false] at ht
      refine ih (x :: acc) ?_ t ht a ha
      intro b hb
      rcases List.mem_cons.mp hb with rfl | hb'
      · simpa using hw
      · exact hacc b hb'

theorem splitWsAux_eq_nil (l : List Char) :
    ∀ (acc : List Char), splitWsAux l acc = [] →
      acc = [] ∧ ∀ a ∈ l, a.isWhitespace = true := by
  induction l with
  | nil =>
    intro acc h
    simp only [splitWsAux] at h
    split at h
    · rename_i hacc
      exact ⟨List.isEmpty_iff.mp hacc, by simp⟩
    · simp at h
  | cons x xs ih =>
    intro acc h
    simp only [splitWsAux] at h
    by_cases hw : x.isWhitespace
    · simp only [hw, if_true] at h
      split at h
      · rename_i hacc
        obtain ⟨-, hall⟩ := ih [] h
        refine ⟨List.isEmpty_iff.mp hacc, ?_⟩
        intro a ha
        rcases List.mem_cons.mp ha with rfl | ha'
        · exact hw
        · exact hall a ha'
      · simp at h
    · simp only [hw, if_false] at h
      obtain ⟨hcons, -⟩ := ih (x :: acc) h
      simp at hcons

theorem splitWs_tokens (l : List Char) :
    ∀ t ∈ splitWs l, ∀ a ∈ t, a.isWhitespace = false :=
  splitWsAux_tokens l [] (by simp)

theorem splitWs_getElem?_tokens (l : List Char) (i : Nat) (t : List Char)
    (h : (splitWs l)[i]? = some t) : ∀ a ∈ t, a.isWhitespace = false := by
  obtain ⟨hlt, rfl⟩ := List.getElem?_eq_some_iff.mp h
  exact splitWs_tokens l _ (List.getElem_mem hlt)

theorem dropWhile_isWs_eq_self (l : List Char)
    (h : ∀ a ∈ l, a.isWhitespace = false) : l.dropWhile Char.isWhitespace = l := by
  cases l with
  | nil => rfl
  | cons x xs => simp [List.dropWhile_cons, h x (List.mem_cons_self x xs)]

theorem trimL_eq_self (l : List Char) (h : ∀ a ∈ l, a.isWhitespace = false) :
    trimL l = l := by
  unfold trimL
  rw [dropWhile_isWs_eq_self l h,
    dropWhile_isWs_eq_self l.reverse (fun a ha => h a (List.mem_reverse.mp ha)),
    List.reverse_reverse]

theorem chunksExact2_mem {α : Type} :
    ∀ (l : List α) (x y : α), (x, y) ∈ chunksExact2 l → x ∈ l ∧ y ∈ l
  | [], x, y, h => by simp [chunksExact2] at h
  | [a], x, y, h => by simp [chunksExact2] at h
  | a :: b :: rest, x, y, h => by
    simp only [chunksExact2, List.mem_cons, Prod.mk.injEq] at h
    rcases h with ⟨rfl, rfl⟩ | h
    · exact ⟨List.mem_cons_self _ _, List.mem_cons_of_mem _ (List.mem_cons_self _ _)⟩
    · have hrec := chunksExact2_mem rest x y h
      exact ⟨List.mem_cons_of_mem _ (List.mem_cons_of_mem _ hrec.1),
             List.mem_cons_of_mem _ (List.mem_cons_of_mem _ hrec.2)⟩

theorem chunksExact2_append_singleton {α : Type} :
    ∀ (l : List α) (x : α), l.length % 2 = 0 →
      chunksExact2 (l ++ [x]) = chunksExact2 l
  | [], x, _ => by simp [chunksExact2]
  | [a], x, h => by simp at h
  | a :: b :: rest, x, h => by
    have hrest : rest.length % 2 = 0 := by
      simp only [List.length_cons] at h
      omega
    simp only [List.cons_append, chunksExact2, List.append_eq]
    rw [chunksExact2_append_singleton rest x hrest]

/-! ## Helper lemmas on the regex fragment -/

theorem matchesFront_eq_litFront :
    ∀ (p t : List Char), (∀ c ∈ p, c ≠ '.') → matchesFront p t = litFront p t
  | [], _, _ => rfl
  | _ :: _, [], _ => rfl
  | p :: ps, c :: cs, h => by
    have hp : p ≠ '.' := h p (List.mem_cons_self _ _)
    have hrec := matchesFront_eq_litFront ps cs (fun d hd => h d (List.mem_cons_of_mem _ hd))
    simp [matchesFront, litFront, charMatches, hrec, hp]

theorem regexSearch_eq_litOccurs (p : List Char) (hp : ∀ c ∈ p, c ≠ '.') :
    ∀ (t : List Char), regexSearch p t = litOccurs p t
  | [] => by simp [regexSearch, litOccurs, matchesFront_eq_litFront p [] hp]
  | c :: cs => by
    simp [regexSearch, litOccurs, matchesFront_eq_litFront p (c :: cs) hp,
      regexSearch_eq_litOccurs p hp cs]

theorem litFront_iff : ∀ (p t : List Char), litFront p t = true ↔ ∃ v, t = p ++ v
  | [], t => by simp [litFront]
  | p :: ps, [] => by simp [litFront]
  | p :: ps, c :: cs => by
    simp only [litFront, Bool.and_eq_true, decide_eq_true_eq, litFront_iff ps cs,
      List.cons_append, List.cons.injEq]
    constructor
    · rintro ⟨rfl, v, rfl⟩
      exact ⟨v, rfl, rfl⟩
    · rintro ⟨v, rfl, rfl⟩
      exact ⟨rfl, v, rfl⟩

theorem litOccurs_iff : ∀ (p t : List Char), litOccurs p t = true ↔ ∃ u v, t = u ++ p ++ v
  | p, [] => by
    simp only [litOccurs, litFront_iff]
    constructor
    · rintro ⟨v, hv⟩
      exact ⟨[], v, by simpa using hv⟩
    · rintro ⟨u, v, huv⟩
      have hu : u = [] := by
        cases u with
        | nil => rfl
        | cons a as => simp at huv
      subst hu
      exact ⟨v, by simpa using huv⟩
  | p, c :: cs => by
    simp only [litOccurs, Bool.or_eq_true, litFront_iff, litOccurs_iff p cs]
    constructor
    · rintro (⟨v, hv⟩ | ⟨u, v, huv⟩)
      · exact ⟨[], v, by simpa using hv⟩
      · exact ⟨c :: u, v, by simp [huv]⟩
    · rintro ⟨u, v, huv⟩
      cases u with
      | nil => exact Or.inl ⟨v, by simpa using huv⟩
      | cons a as =>
        simp only [List.cons_append, List.cons.injEq] at huv
        exact Or.inr ⟨as, v, huv.2⟩

theorem parensOkAux_no_paren :
    ∀ (l : List Char) (d : Nat), (∀ c ∈ l, c ≠ '(' ∧ c ≠ ')') →
      parensOkAux l d = (d == 0)
  | [], _, _ => rfl
  | x :: xs, d, h => by
    have hx := h x (List.mem_cons_self _ _)
    have hrec := parensOkAux_no_paren xs d (fun c hc => h c (List.mem_cons_of_mem _ hc))
    simp [parensOkAux, hx.1, hx.2, hrec]

theorem mem_of_matchesFront :
    ∀ (p t : List Char), matchesFront p t = true → ∀ c ∈ p, c = '.' ∨ c ∈ t
  | [], _, _, c, hc => absurd hc (List.not_mem_nil c)
  | _ :: _, [], h, _, _ => by simp [matchesFront] at h
  | p :: ps, d :: ds, h, c, hc => by
    simp only [matchesFront, Bool.and_eq_true, charMatches, Bool.or_eq_true,
      decide_eq_true_eq] at h
    rcases List.mem_cons.mp hc with rfl | hc'
    · rcases h.1 with h1 | h1
      · exact Or.inl h1
      · exact Or.inr (h1 ▸ List.mem_cons_self _ _)
    · rcases mem_of_matchesFront ps ds h.2 c hc' with h1 | h1
      · exact Or.inl h1
      · exact Or.inr (List.mem_cons_of_mem _ h1)

theorem mem_of_regexSearch :
    ∀ (p t : List Char), regexSearch p t = true → ∀ c ∈ p, c = '.' ∨ c ∈ t
  | p, [], h, c, hc => mem_of_matchesFront p [] h c hc
  | p, d :: ds, h, c, hc => by
    simp only [regexSearch, Bool.or_eq_true] at h
    rcases h with h | h
    · exact mem_of_matchesFront _ _ h c hc
    · rcases mem_of_regexSearch p ds h c hc with h1 | h1
      · exact Or.inl h1
      · exact Or.inr (List.mem_cons_of_mem _ h1)

theorem pattern_has_marker (names : List (List Char)) :
    ∀ p ∈ mkPatterns names, ∃ c ∈ p, c ≠ '.' ∧ c.isWhitespace = false := by
  intro p hp
  rcases List.mem_append.mp hp with h | h
  · rcases List.mem_map.mp h with ⟨n, -, rfl⟩
    exact ⟨'c', List.mem_append_right _ (by decide), by decide⟩
  · rw [List.mem_singleton.mp h]
    exact ⟨'B', by decide, by decide⟩

theorem splitWs_ne_nil_of_kept (names : List (List Char)) (l : List Char)
    (h : lineKept names l = true) : splitWs l ≠ [] := by
  intro hnil
  obtain ⟨-, hall⟩ := splitWsAux_eq_nil l [] hnil
  simp only [lineKept, List.any_eq_true] at h
  obtain ⟨p, hp, hsearch⟩ := h
  obtain ⟨c, hc, hdot, hws⟩ := pattern_has_marker names p hp
  rcases mem_of_regexSearch p l hsearch c hc with h1 | h1
  · exact hdot h1
  · rw [hall c h1] at hws
    cases hws

/-! ## Helper lemmas on the brightness cast chain -/

theorem setBrightness_add (m : Monitor) (w : Nat) (hm : m.brightness ≤ 100)
    (hw : w ≤ 100) :
    (setBrightness m (w : Int)).1 = { m with brightness := m.brightness + w } := by
  unfold setBrightness u32toI32 i32addWrap i32toU32
  simp only [Monitor.mk.injEq, and_true, true_and]
  have h31 : (2 : Int) ^ 31 = 2147483648 := by norm_num
  have h32 : (2 : Int) ^ 32 = 4294967296 := by norm_num
  have hlt : m.brightness < 2 ^ 31 := by
    have : (2 : Nat) ^ 31 = 2147483648 := by norm_num
    omega
  rw [if_pos hlt, h31, h32]
  omega

theorem setBrightness_sub (m : Monitor) (w : Nat) (hm : m.brightness ≤ 100)
    (hw : w ≤ m.brightness) :
    (setBrightness m (-(w : Int))).1 = { m with brightness := m.brightness - w } := by
  unfold setBrightness u32toI32 i32addWrap i32toU32
  simp only [Monitor.mk.injEq, and_true, true_and]
  have h31 : (2 : Int) ^ 31 = 2147483648 := by norm_num
  have h32 : (2 : Int) ^ 32 = 4294967296 := by norm_num
  have hlt : m.brightness < 2 ^ 31 := by
    have : (2 : Nat) ^ 31 = 2147483648 := by norm_num
    omega
  rw [if_pos hlt, h31, h32]
  omega






theorem filterMap_getLast_names (L : List (List Char)) :
    L.filterMap (fun l => ((splitWs l).getLast?).map String.mk) =
      (L.filter (fun l => !(splitWs l).isEmpty)).map
        (fun l => String.mk ((splitWs l).getLastD [])) := by
  induction L with
  | nil => rfl
  | cons l ls ih =>
    cases hsw : splitWs l with
    | nil => simp [List.filterMap_cons, List.filter_cons, hsw, ih]
    | cons a as =>
      obtain ⟨x, hx⟩ : ∃ x, (a :: as).getLast? = some x := by
        cases h' : (a :: as).getLast? with
        | none => exact absurd (List.getLast?_eq_none_iff.mp h') (by simp)
        | some x => exact ⟨x, rfl⟩
      simp [List.filterMap_cons, List.filter_cons, hsw, ih, hx,
        List.getLastD_eq_getLast?]

/-- C1: the claim reads "for every click event ... with the primary button
... when `monitors` is empty, the click is skipped, leaving `current_idx`
unchanged, without any failure or underflow"; but the handler computes
`self.monitors.len() - 1` unguarded, and on an empty list that `usize`
subtraction underflows (panic in a debug build, wrap to `2^64 - 1` in a
release build, where `current_idx` then becomes 1, not unchanged).  The
model evaluates the handler at the failing input: the underflow (`none`)
is reached, the click is not skipped. -/
theorem spec_c1 : click ⟨[], 0, 5⟩ .left = none := rfl

/-- C9: a refresh tick never touches `current_idx` (no re-validation even
when the new list is shorter), and a tick in which the lister yields no
names or the extractor yields no records leaves the previous `monitors`
list untouched. -/
theorem spec_c9 (activeText verboseText : String) (s : Xrandr) :
    ((update activeText verboseText s).1.current_idx = s.current_idx)
    ∧ (getActiveMonitors activeText = none →
        update activeText verboseText s = (s, none))
    ∧ (∀ names, getActiveMonitors activeText = some names →
        getMonitorMetrics names verboseText = .ok none →
        update activeText verboseText s = (s, none)) := by
  refine ⟨?_, ?_, ?_⟩
  · cases h : getActiveMonitors activeText with
    | none => simp [update, h]
    | some am =>
      cases h2 : getMonitorMetrics am verboseText with
      | error e => simp [update, h, h2]
      | ok o => cases o <;> simp [update, h, h2]
  · intro h
    simp [update, h]
  · intro names h h2
    simp [update, h, h2]

/-- C10: a pair whose second line has no second `:`-field raises no error —
the brightness silently stays 0, and a record (with brightness 0) is still
produced whenever a geometry token is found; the `chunks_exact(2)` pairing
silently drops a trailing unpaired line. -/
theorem spec_c10 (a b : List Char) (h : (splitOnChar ':' b)[1]? = none) :
    brightnessStage a b = .ok 0
    ∧ (∀ r0, (splitWs a)[2]? = some r0 →
        (r0.contains '+' = true ∨ ((splitWs a)[3]?).isSome = true) →
        ∃ m, processPair a b = .ok (some m) ∧ m.brightness = 0)
    ∧ (∀ (L : List (List Char)) (x : List Char), L.length % 2 = 0 →
        chunksExact2 (L ++ [x]) = chunksExact2 L) := by
  have hbs : brightnessStage a b = .ok 0 := by
    unfold brightnessStage
    cases h0 : (splitWs a)[0]? with
    | none => rfl
    | some t => rw [h]
  refine ⟨hbs, ?_, fun L x hL => chunksExact2_append_singleton L x hL⟩
  intro r0 h2 hgeom
  by_cases hp : r0.contains '+' = true
  · simp only [processPair, hbs, h2, hp, if_true, splitOnChar_head]
    exact ⟨_, rfl, rfl⟩
  · have hsome : ((splitWs a)[3]?).isSome = true := by
      rcases hgeom with h' | h'
      · exact absurd h' hp
      · exact h'
    obtain ⟨r3, hr3⟩ := Option.isSome_iff_exists.mp hsome
    simp only [processPair, hbs, h2, hp, if_false, hr3, splitOnChar_head,
      Bool.false_eq_true]
    exact ⟨_, rfl, rfl⟩

theorem spec_c10_w :
    ∃ m, processPair (toL "eDP-1 connected 1920x1080+0+0")
        (toL "DP-2 connected 1280x720+0+0") = .ok (some m) ∧ m.brightness = 0 :=
  (spec_c10 (toL "eDP-1 connected 1920x1080+0+0")
      (toL "DP-2 connected 1280x720+0+0") (by decide)).2.1
    (toL "1920x1080+0+0") (by decide) (Or.inl (by decide))

/-- C8: the lister takes, for every line with at least one whitespace
token, the line's last token, in line order, skipping token-less lines; the
result is the absent value exactly when no name was extracted (never an
error, never an empty-but-present list). -/
theorem spec_c8 (text : String) :
    (getActiveMonitors text = none ↔
      ∀ l ∈ splitOnChar '\n' text.data, splitWs l = [])
    ∧ (∀ names, getActiveMonitors text = some names →
        names =
          ((splitOnChar '\n' text.data).filter (fun l => !(splitWs l).isEmpty)).map
            (fun l => String.mk ((splitWs l).getLastD []))
        ∧ names ≠ []) := by
  constructor
  · constructor
    · intro h l hl
      have hF : (splitOnChar '\n' text.data).filterMap
          (fun l => ((splitWs l).getLast?).map String.mk) = [] := by
        by_contra hne
        simp [getActiveMonitors, List.isEmpty_iff, hne] at h
      have := (List.filterMap_eq_nil_iff.mp hF) l hl
      rw [Option.map_eq_none'] at this
      exact List.getLast?_eq_none_iff.mp this
    · intro h
      have hF : (splitOnChar '\n' text.data).filterMap
          (fun l => ((splitWs l).getLast?).map String.mk) = [] :=
        List.filterMap_eq_nil_iff.mpr (fun l hl => by simp [h l hl])
      simp [getActiveMonitors, hF]
  · intro names h
    have hF : ¬ ((splitOnChar '\n' text.data).filterMap
        (fun l => ((splitWs l).getLast?).map String.mk)).isEmpty = true := by
      intro he
      simp [getActiveMonitors, List.isEmpty_iff.mp he] at h
    have hnames : names = (splitOnChar '\n' text.data).filterMap
        (fun l => ((splitWs l).getLast?).map String.mk) := by
      simp only [getActiveMonitors, if_neg hF] at h
      exact (Option.some_inj.mp h).symm
    subst hnames
    refine ⟨filterMap_getLast_names _, ?_⟩
    intro h0
    rw [h0] at hF
    exact hF rfl

/-- C2: a scroll-up dispatches a brightness change (of exactly
`+step_width`) iff a monitor exists at `current_idx` with brightness at
most `100 - step_width`; a scroll-down dispatches `-step_width` iff the
selected monitor's brightness is at least `step_width`; in every other case
the state (monitor list and all brightness values) is unchanged. -/
theorem spec_c2 (s : Xrandr) (hs : s.step_width ≤ 50) :
    ((∃ r, click s (.scroll (some .up)) = some r ∧ r.2 ≠ none) ↔
      ∃ m, s.monitors[s.current_idx]? = some m ∧ m.brightness + s.step_width ≤ 100)
    ∧ ((∃ r, click s (.scroll (some .down)) = some r ∧ r.2 ≠ none) ↔
      ∃ m, s.monitors[s.current_idx]? = some m ∧ s.step_width ≤ m.brightness)
    ∧ (∀ d r, click s (.scroll d) = some r → ∀ c, r.2 = some c →
        c.step = (if d = some .up then (s.step_width : Int) else -(s.step_width : Int)))
    ∧ (∀ d r, click s (.scroll d) = some r → r.2 = none → r.1 = s) := by
  refine ⟨?_, ?_, ?_, ?_⟩
  · cases h : s.monitors[s.current_idx]? with
    | none => simp [click, h]
    | some m =>
      by_cases hg : m.brightness ≤ 100 - s.step_width <;>
        simp [click, h, hg] <;> omega
  · cases h : s.monitors[s.current_idx]? with
    | none => simp [click, h]
    | some m =>
      by_cases hg : s.step_width ≤ m.brightness <;>
        simp [click, h, hg]
  · intro d r hr c hc
    rcases d with - | dir
    · simp [click] at hr
      subst hr
      simp at hc
    · cases dir with
      | up =>
        cases h : s.monitors[s.current_idx]? with
        | none =>
          simp [click, h] at hr
          subst hr
          simp at hc
        | some m =>
          by_cases hg : m.brightness ≤ 100 - s.step_width
          · simp [click, h, hg] at hr
            subst hr
            simp only at hc
            obtain rfl := Option.some_inj.mp hc.symm
            simp [setBrightness]
          · simp [click, h, hg] at hr
            subst hr
            simp at hc
      | down =>
        cases h : s.monitors[s.current_idx]? with
        | none =>
          simp [click, h] at hr
          subst hr
          simp at hc
        | some m =>
          by_cases hg : s.step_width ≤ m.brightness
          · simp [click, h, hg] at hr
            subst hr
            simp only at hc
            obtain rfl := Option.some_inj.mp hc.symm
            simp [setBrightness]
          · simp [click, h, hg] at hr
            subst hr
            simp at hc
  · intro d r hr hnone
    rcases d with - | dir
    · simp [click] at hr
      subst hr
      rfl
    · cases dir with
      | up =>
        cases h : s.monitors[s.current_idx]? with
        | none =>
          simp [click, h] at hr
          subst hr
          rfl
        | some m =>
          by_cases hg : m.brightness ≤ 100 - s.step_width
          · simp [click, h, hg] at hr
            subst hr
            simp at hnone
          · simp [click, h, hg] at hr
            subst hr
            rfl
      | down =>
        cases h : s.monitors[s.current_idx]? with
        | none =>
          simp [click, h] at hr
          subst hr
          rfl
        | some m =>
          by_cases hg : s.step_width ≤ m.brightness
          · simp [click, h, hg] at hr
            subst hr
            simp at hnone
          · simp [click, h, hg] at hr
            subst hr
            rfl

theorem spec_c2_w :
    (⟨[⟨"eDP-1", 95, "1920x1080"⟩], 0, 5⟩ : Xrandr).step_width ≤ 50 ∧
    (∃ r, click ⟨[⟨"eDP-1", 95, "1920x1080"⟩], 0, 5⟩ (.scroll (some .up)) = some r ∧
      r.2 ≠ none) :=
  ⟨by decide,
    (spec_c2 ⟨[⟨"eDP-1", 95, "1920x1080"⟩], 0, 5⟩ (by decide)).1.mpr
      ⟨⟨"eDP-1", 95, "1920x1080"⟩, by decide, by decide⟩⟩

/-- C3: with `step_width ≤ 50` (the construction-time clamp) and all
brightness values in `[0, 100]`, handling any single click keeps every
brightness in `[0, 100]`; a guarded scroll sets the selected monitor's
brightness to exactly the old value plus (resp. minus) `step_width`. -/
theorem spec_c3 (s : Xrandr) (b : ClickButton) (hs : s.step_width ≤ 50)
    (hb : ∀ m ∈ s.monitors, m.brightness ≤ 100) :
    ∀ r, click s b = some r →
      ((∀ m ∈ r.1.monitors, m.brightness ≤ 100)
       ∧ (∀ m, s.monitors[s.current_idx]? = some m →
           ((b = .scroll (some .up) → m.brightness + s.step_width ≤ 100 →
              r.1.monitors[s.current_idx]? =
                some { m with brightness := m.brightness + s.step_width })
            ∧ (b = .scroll (some .down) → s.step_width ≤ m.brightness →
              r.1.monitors[s.current_idx]? =
                some { m with brightness := m.brightness - s.step_width })))) := by
  intro r hr
  cases b with
  | left =>
    cases hsub : usizeSub1 s.monitors.length with
    | none => simp [click, hsub] at hr
    | some lastIdx =>
      by_cases hlt : s.current_idx < lastIdx <;>
        simp [click, hsub, hlt] at hr <;> subst hr <;>
        exact ⟨hb, fun m hm =>
          ⟨fun hbeq => ClickButton.noConfusion hbeq,
           fun hbeq => ClickButton.noConfusion hbeq⟩⟩
  | scroll d =>
    rcases d with - | dir
    · simp [click] at hr
      subst hr
      refine ⟨hb, fun m hm => ⟨fun hbeq => ?_, fun hbeq => ?_⟩⟩ <;> simp at hbeq
    · cases dir with
      | up =>
        cases h : s.monitors[s.current_idx]? with
        | none =>
          simp [click, h] at hr
          subst hr
          exact ⟨hb, fun m hm => Option.noConfusion hm⟩
        | some m0 =>
          have hlen : s.current_idx < s.monitors.length :=
            (List.getElem?_eq_some_iff.mp h).1
          have hm0 : m0.brightness ≤ 100 := by
            obtain ⟨h1, hget⟩ := List.getElem?_eq_some_iff.mp h
            exact hget ▸ hb _ (List.getElem_mem h1)
          by_cases hg : m0.brightness ≤ 100 - s.step_width
          · simp [click, h, hg] at hr
            subst hr
            have hset := setBrightness_add m0 s.step_width hm0 (by omega)
            constructor
            · intro x hx
              rcases List.mem_or_eq_of_mem_set hx with hx' | rfl
              · exact hb x hx'
              · rw [hset]
                simp only
                omega
            · intro m hm
              obtain rfl : m0 = m := Option.some_inj.mp hm
              refine ⟨fun _ hbnd => ?_, fun hbeq hbnd => ?_⟩
              · simp only
                rw [List.getElem?_set_self hlen, hset]
              · simp at hbeq
          · simp [click, h, hg] at hr
            subst hr
            refine ⟨hb, fun m hm => ?_⟩
            obtain rfl : m0 = m := Option.some_inj.mp hm
            refine ⟨fun _ hbnd => absurd hbnd (by omega), fun hbeq hbnd => ?_⟩
            simp at hbeq
      | down =>
        cases h : s.monitors[s.current_idx]? with
        | none =>
          simp [click, h] at hr
          subst hr
          exact ⟨hb, fun m hm => Option.noConfusion hm⟩
        | some m0 =>
          have hlen : s.current_idx < s.monitors.length :=
            (List.getElem?_eq_some_iff.mp h).1
          have hm0 : m0.brightness ≤ 100 := by
            obtain ⟨h1, hget⟩ := List.getElem?_eq_some_iff.mp h
            exact hget ▸ hb _ (List.getElem_mem h1)
          by_cases hg : s.step_width ≤ m0.brightness
          · simp [click, h, hg] at hr
            subst hr
            have hset := setBrightness_sub m0 s.step_width hm0 hg
            constructor
            · intro x hx
              rcases List.mem_or_eq_of_mem_set hx with hx' | rfl
              · exact hb x hx'
              · rw [hset]
                simp only
                omega
            · intro m hm
              obtain rfl : m0 = m := Option.some_inj.mp hm
              refine ⟨fun hbeq hbnd => ?_, fun _ hbnd => ?_⟩
              · simp at hbeq
              · simp only
                rw [List.getElem?_set_self hlen, hset]
          · simp [click, h, hg] at hr
            subst hr
            refine ⟨hb, fun m hm => ?_⟩
            obtain rfl : m0 = m := Option.some_inj.mp hm
            refine ⟨fun hbeq hbnd => ?_, fun _ hbnd => absurd hbnd (by omega)⟩
            simp at hbeq

theorem spec_c3_w :
    (∀ m ∈ ([⟨"eDP-1", 100, "1920x1080"⟩] : List Monitor), m.brightness ≤ 100)
    ∧ (∀ m, ([⟨"eDP-1", 95, "1920x1080"⟩] : List Monitor)[(0 : Nat)]? = some m →
        ((ClickButton.scroll (some .up) = .scroll (some .up) →
           m.brightness + 5 ≤ 100 →
           ([⟨"eDP-1", 100, "1920x1080"⟩] : List Monitor)[(0 : Nat)]? =
             some { m with brightness := m.brightness + 5 })
         ∧ (ClickButton.scroll (some .up) = .scroll (some .down) →
           5 ≤ m.brightness →
           ([⟨"eDP-1", 100, "1920x1080"⟩] : List Monitor)[(0 : Nat)]? =
             some { m with brightness := m.brightness - 5 }))) :=
  spec_c3 ⟨[⟨"eDP-1", 95, "1920x1080"⟩], 0, 5⟩ (.scroll (some .up)) (by decide)
    (by decide) ⟨⟨[⟨"eDP-1", 100, "1920x1080"⟩], 0, 5⟩, some ⟨"eDP-1", 5⟩⟩ (by decide)

/-- C5: per header/brightness pair, the monitor name is whitespace-token 0
of the header line; the geometry token is token 2 when that token contains
`+`, else token 3; the recorded resolution is the part of the geometry
token before its first `+`; with no geometry token (token 2 without `+`
and token 3 absent, or fewer than three tokens) the pair is skipped
without aborting the remaining pairs. -/
theorem spec_c5 (a b : List Char) (k : Nat) (hk : brightnessStage a b = .ok k) :
    (∀ r0, (splitWs a)[2]? = some r0 →
      ((r0.contains '+' = true →
        ∃ n, (splitWs a)[0]? = some n ∧
          processPair a b = .ok (some ⟨String.mk n, k, String.mk (beforePlus r0)⟩))
      ∧ (r0.contains '+' = false → ∀ r3, (splitWs a)[3]? = some r3 →
        ∃ n, (splitWs a)[0]? = some n ∧
          processPair a b = .ok (some ⟨String.mk n, k, String.mk (beforePlus r3)⟩))
      ∧ (r0.contains '+' = false → (splitWs a)[3]? = none →
          processPair a b = .ok none)))
    ∧ ((splitWs a)[2]? = none → processPair a b = .ok none)
    ∧ (processPair a b = .ok none →
        ∀ rest, processPairs ((a, b) :: rest) = processPairs rest) := by
  refine ⟨?_, ?_, ?_⟩
  · intro r0 h2
    obtain ⟨n, hn⟩ : ∃ n, (splitWs a)[0]? = some n := by
      cases hsw : (splitWs a)[0]? with
      | some n => exact ⟨n, rfl⟩
      | none =>
        have h1 := List.getElem?_eq_none_iff.mp hsw
        have hlen := (List.getElem?_eq_some_iff.mp h2).1
        omega
    have hnws := splitWs_getElem?_tokens a 0 n hn
    have hr0ws := splitWs_getElem?_tokens a 2 r0 h2
    refine ⟨fun hplus => ⟨n, hn, ?_⟩, fun hplus r3 hr3 => ⟨n, hn, ?_⟩,
      fun hplus h3 => ?_⟩
    · simp only [processPair, hk, hn, h2, hplus, if_true, splitOnChar_head]
      rw [trimL_eq_self n hnws,
        trimL_eq_self _ (fun x hx => hr0ws x (List.takeWhile_subset _ hx))]
      rfl
    · have hr3ws := splitWs_getElem?_tokens a 3 r3 hr3
      simp only [processPair, hk, hn, h2, hplus, if_false, hr3, splitOnChar_head,
        Bool.false_eq_true]
      rw [trimL_eq_self n hnws,
        trimL_eq_self _ (fun x hx => hr3ws x (List.takeWhile_subset _ hx))]
      rfl
    · simp only [processPair, hk, hn, h2, hplus, if_false, h3, Bool.false_eq_true]
  · intro h2
    simp only [processPair, hk, h2]
  · intro hnone rest
    simp only [processPairs, hnone]

theorem spec_c5_w :
    ∃ n, (splitWs (toL "DP-1 connected primary 1920x1080+0+0"))[0]? = some n ∧
      processPair (toL "DP-1 connected primary 1920x1080+0+0")
          (toL "Brightness: 0.5") =
        .ok (some ⟨String.mk n, 50, String.mk (beforePlus (toL "1920x1080+0+0"))⟩) :=
  ((spec_c5 (toL "DP-1 connected primary 1920x1080+0+0") (toL "Brightness: 0.5")
      50 rfl).1 (toL "primary") (by decide)).2.1 (by decide)
    (toL "1920x1080+0+0") (by decide)

/-! ## Helper lemmas on the extraction error path -/

theorem processPair_ok (a b : List Char) (k : Nat)
    (hk : brightnessStage a b = .ok k) : ∃ r, processPair a b = .ok r := by
  simp only [processPair, hk]
  cases h2 : (splitWs a)[2]? with
  | none => exact ⟨none, rfl⟩
  | some r0 =>
    cases hcp : r0.contains '+' with
    | true =>
      simp only [hcp, if_true, splitOnChar_head]
      exact ⟨_, rfl⟩
    | false =>
      cases h3 : (splitWs a)[3]? with
      | none =>
        simp only [hcp, Bool.false_eq_true, if_false, h3]
        exact ⟨none, rfl⟩
      | some r3 =>
        simp only [hcp, Bool.false_eq_true, if_false, h3, splitOnChar_head]
        exact ⟨_, rfl⟩

theorem processPair_error_stage (a b : List Char) (e : String)
    (h : processPair a b = .error e) : brightnessStage a b = .error e := by
  cases hb : brightnessStage a b with
  | error e' =>
    have hpp : processPair a b = .error e' := by simp [processPair, hb]
    rw [hpp] at h
    injection h with h1
    rw [h1]
  | ok k =>
    obtain ⟨r, hr⟩ := processPair_ok a b k hb
    rw [hr] at h
    exact Except.noConfusion h

theorem brightnessStage_error_msg (a b : List Char) (e : String)
    (h : brightnessStage a b = .error e) : e = "unable to parse brightness" := by
  unfold brightnessStage at h
  cases h0 : (splitWs a)[0]? with
  | none =>
    simp only [h0] at h
    exact Except.noConfusion h
  | some n =>
    simp only [h0] at h
    cases h1 : (splitOnChar ':' b)[1]? with
    | none =>
      simp only [h1] at h
      exact Except.noConfusion h
    | some raw =>
      simp only [h1] at h
      cases h2 : parseF32val (trimL raw) with
      | none =>
        simp only [h2] at h
        injection h with h3
        exact h3.symm
      | some v =>
        simp only [h2] at h
        exact Except.noConfusion h

theorem brightnessStage_error_of (a b raw : List Char) (ha : splitWs a ≠ [])
    (hraw : (splitOnChar ':' b)[1]? = some raw)
    (hbad : parseF32val (trimL raw) = none) :
    brightnessStage a b = .error "unable to parse brightness" := by
  obtain ⟨n, hn⟩ : ∃ n, (splitWs a)[0]? = some n := by
    cases hsw : splitWs a with
    | nil => exact absurd hsw ha
    | cons t ts => exact ⟨t, by simp⟩
  simp only [brightnessStage, hn, hraw, hbad]

theorem processPairs_error_of_mem :
    ∀ (pairs : List (List Char × List Char)) (p : List Char × List Char),
      p ∈ pairs → processPair p.1 p.2 = .error "unable to parse brightness" →
      processPairs pairs = .error "unable to parse brightness"
  | [], p, hp, _ => absurd hp (List.not_mem_nil p)
  | q :: rest, p, hp, herr => by
    rcases List.mem_cons.mp hp with rfl | hp'
    · simp [processPairs, herr]
    · cases hq : processPair q.1 q.2 with
      | error e =>
        have he : e = "unable to parse brightness" :=
          brightnessStage_error_msg q.1 q.2 e (processPair_error_stage q.1 q.2 e hq)
        simp [processPairs, hq, he]
      | ok o =>
        have hrec := processPairs_error_of_mem rest p hp' herr
        cases o with
        | none => simp [processPairs, hq, hrec]
        | some m => simp [processPairs, hq, hrec]

/-- C6 counterexample: the claim says the recorded brightness equals
`floor(v × 100)` for EVERY pair whose brightness field parses as a value
`v`; `"Brightness: -1"` parses (to the `f32` value -1), `floor(v × 100)`
is -100, but the `as u32` cast saturates negative values to 0, so the
recorded brightness is 0, not -100. -/
theorem spec_c6_cex :
    parseF32val (trimL (toL " -1")) = some ⟨-8388608, 8388608⟩
    ∧ processPair (toL "eDP-1 connected 1920x1080+0+0") (toL "Brightness: -1") =
        .ok (some ⟨"eDP-1", 0, "1920x1080"⟩)
    ∧ fracFloor (mulF32 ⟨-8388608, 8388608⟩ ⟨100, 1⟩) = -100
    ∧ (0 : Int) ≠ -100 :=
  ⟨rfl, rfl, rfl, by decide⟩

/-- C6 (amended): for a pair whose header line has a first token and whose
brightness field parses as the `f32` value `v`, when `v ×_f32 100` is
non-negative and its floor is below `2^32`, the recorded brightness is
exactly `floor(v ×_f32 100)` (the multiplication being the `f32` one);
negative products saturate to 0 through the `as u32` cast (see the
counterexample).  In particular the pair
`"eDP-1 connected 1920x1080+0+0 ..."` / `"Brightness: 0.80"` yields the
record `{name: "eDP-1", brightness: 80, resolution: "1920x1080"}`. -/
theorem spec_c6 (a b raw : List Char) (v : Frac)
    (ha : ((splitWs a)[0]?).isSome = true)
    (hraw : (splitOnChar ':' b)[1]? = some raw)
    (hv : parseF32val (trimL raw) = some v)
    (h0 : 0 ≤ (mulF32 v ⟨100, 1⟩).num)
    (h1 : fracFloor (mulF32 v ⟨100, 1⟩) ≤ 2 ^ 32 - 1) :
    brightnessStage a b = .ok (Int.toNat (fracFloor (mulF32 v ⟨100, 1⟩)))
    ∧ processPair
        (toL "eDP-1 connected 1920x1080+0+0 (normal left inverted right x axis y axis) 309mm x 174mm")
        (toL "Brightness: 0.80") =
      .ok (some ⟨"eDP-1", 80, "1920x1080"⟩) := by
  constructor
  · obtain ⟨n, hn⟩ := Option.isSome_iff_exists.mp ha
    simp only [brightnessStage, hn, hraw, hv]
    unfold f32FloorToU32
    rw [if_neg (by omega), Nat.min_eq_left (by omega)]
  · rfl

theorem spec_c6_w :
    brightnessStage
        (toL "eDP-1 connected 1920x1080+0+0 (normal left inverted right x axis y axis) 309mm x 174mm")
        (toL "Brightness: 0.80") =
      .ok (Int.toNat (fracFloor (mulF32 ⟨13421773, 16777216⟩ ⟨100, 1⟩)))
    ∧ processPair
        (toL "eDP-1 connected 1920x1080+0+0 (normal left inverted right x axis y axis) 309mm x 174mm")
        (toL "Brightness: 0.80") =
      .ok (some ⟨"eDP-1", 80, "1920x1080"⟩) :=
  spec_c6
    (toL "eDP-1 connected 1920x1080+0+0 (normal left inverted right x axis y axis) 309mm x 174mm")
    (toL "Brightness: 0.80") (toL " 0.80") ⟨13421773, 16777216⟩
    (by decide) (by decide) (by decide) (by decide) (by decide)

/-- C7: a processed pair whose brightness field (the trimmed second
`:`-field of its second line) fails to parse makes the whole extraction
return the "unable to parse brightness" error, the error propagates out of
the refresh tick, and the stored `monitors` list (the whole state) is left
exactly as it was. -/
theorem spec_c7 (monitor_names : List String) (text : String) (a b raw : List Char)
    (hok : patternsOk (monitor_names.map String.data) = true)
    (hmem : (a, b) ∈ chunksExact2 (keptLines (monitor_names.map String.data) text))
    (hraw : (splitOnChar ':' b)[1]? = some raw)
    (hbad : parseF32val (trimL raw) = none) :
    getMonitorMetrics monitor_names text = .error "unable to parse brightness"
    ∧ ∀ (activeText : String) (s : Xrandr),
        getActiveMonitors activeText = some monitor_names →
        update activeText text s = (s, some "unable to parse brightness") := by
  have hain : a ∈ keptLines (monitor_names.map String.data) text :=
    (chunksExact2_mem _ a b hmem).1
  have hkept : lineKept (monitor_names.map String.data) a = true :=
    (List.mem_filter.mp hain).2
  have hane : splitWs a ≠ [] := splitWs_ne_nil_of_kept _ a hkept
  have herr : processPair a b = .error "unable to parse brightness" := by
    simp [processPair, brightnessStage_error_of a b raw hane hraw hbad]
  have hpe : processPairs
      (chunksExact2 (keptLines (monitor_names.map String.data) text)) =
      .error "unable to parse brightness" :=
    processPairs_error_of_mem _ (a, b) hmem herr
  have hgm : getMonitorMetrics monitor_names text =
      .error "unable to parse brightness" := by
    simp [getMonitorMetrics, hok, hpe]
  refine ⟨hgm, fun activeText s hact => ?_⟩
  simp [update, hact, hgm]

theorem spec_c7_w :
    getMonitorMetrics ["eDP-1"] "eDP-1 connected 1920x1080+0+0\nBrightness: abc" =
      .error "unable to parse brightness"
    ∧ update "0: x eDP-1" "eDP-1 connected 1920x1080+0+0\nBrightness: abc"
        ⟨[], 0, 5⟩ =
      (⟨[], 0, 5⟩, some "unable to parse brightness") := by
  have h := spec_c7 ["eDP-1"] "eDP-1 connected 1920x1080+0+0\nBrightness: abc"
    (toL "eDP-1 connected 1920x1080+0+0") (toL "Brightness: abc") (toL " abc")
    (by decide) (by decide) (by decide) (by decide)
  exact ⟨h.1, h.2 "0: x eDP-1" ⟨[], 0, 5⟩ (by decide)⟩

/-- C4 counterexample: the claim asserts literal-substring semantics "for
every possible name string" and that "building the matcher never fails";
but each name is interpolated into a regex pattern.  With the name `"."`
the line `"X connected"` is kept although it does not contain the literal
substring `". connected"`; with the name `"("` the pattern is invalid
regex syntax and building the matcher fails with the block error
"invalid monitor name". -/
theorem spec_c4_cex :
    lineKept [['.']] (toL "X connected") = true
    ∧ litOccurs ('.' :: (" connected").data) (toL "X connected") = false
    ∧ (¬ ∃ u v, toL "X connected" = u ++ ('.' :: (" connected").data) ++ v)
    ∧ getMonitorMetrics ["("] "" = .error "invalid monitor name" := by
  refine ⟨by decide, by decide, ?_, rfl⟩
  intro hex
  exact absurd ((litOccurs_iff ('.' :: (" connected").data) (toL "X connected")).mpr hex)
    (by decide)

/-- C4 (amended): a line is kept iff some pattern `"{name} connected"`
(the name interpolated as a regex) matches it, or it contains
`"Brightness:"`; when every active name is free of regex metacharacters
this coincides exactly with literal-substring containment and building the
matcher succeeds.  (Not for every possible name: a metacharacter name
matches non-literally, and an invalid pattern makes construction fail —
see the counterexample.) -/
theorem spec_c4 (names : List (List Char))
    (h : ∀ n ∈ names, ∀ c ∈ n, c ∉ regexMetaChars) :
    patternsOk names = true
    ∧ ∀ l, lineKept names l = true ↔
        ((∃ n ∈ names, ∃ u v, l = u ++ (n ++ (" connected").data) ++ v)
         ∨ ∃ u v, l = u ++ ("Brightness:").data ++ v) := by
  have hchars : ∀ p ∈ mkPatterns names, ∀ c ∈ p, c ∉ regexMetaChars := by
    intro p hp c hc
    rcases List.mem_append.mp hp with h1 | h1
    · rcases List.mem_map.mp h1 with ⟨n, hn, rfl⟩
      rcases List.mem_append.mp hc with h2 | h2
      · exact h n hn c h2
      · have hcon : ∀ c ∈ (" connected").data, c ∉ regexMetaChars := by decide
        exact hcon c h2
    · rw [List.mem_singleton.mp h1] at hc
      have hbr : ∀ c ∈ ("Brightness:").data, c ∉ regexMetaChars := by decide
      exact hbr c hc
  have hdots : ∀ p ∈ mkPatterns names, ∀ c ∈ p, c ≠ '.' := by
    intro p hp c hc heq
    exact hchars p hp c hc (heq ▸ (by decide : ('.' : Char) ∈ regexMetaChars))
  constructor
  · rw [patternsOk, List.all_eq_true]
    intro p hp
    have hnp : ∀ c ∈ p, c ≠ '(' ∧ c ≠ ')' := by
      intro c hc
      constructor
      · intro heq
        exact hchars p hp c hc (heq ▸ (by decide : ('(' : Char) ∈ regexMetaChars))
      · intro heq
        exact hchars p hp c hc (heq ▸ (by decide : (')' : Char) ∈ regexMetaChars))
    rw [regexOk, parensOkAux_no_paren p 0 hnp]
    rfl
  · intro l
    rw [lineKept, List.any_eq_true]
    constructor
    · rintro ⟨p, hp, hs⟩
      rw [regexSearch_eq_litOccurs p (hdots p hp) l] at hs
      obtain ⟨u, v, huv⟩ := (litOccurs_iff p l).mp hs
      rcases List.mem_append.mp hp with h1 | h1
      · rcases List.mem_map.mp h1 with ⟨n, hn, rfl⟩
        exact Or.inl ⟨n, hn, u, v, huv⟩
      · rw [List.mem_singleton.mp h1] at huv
        exact Or.inr ⟨u, v, huv⟩
    · rintro (⟨n, hn, u, v, rfl⟩ | ⟨u, v, rfl⟩)
      · refine ⟨n ++ (" connected").data,
          List.mem_append_left _ (List.mem_map.mpr ⟨n, hn, rfl⟩), ?_⟩
        rw [regexSearch_eq_litOccurs _
          (hdots _ (List.mem_append_left _ (List.mem_map.mpr ⟨n, hn, rfl⟩)))]
        exact (litOccurs_iff _ _).mpr ⟨u, v, rfl⟩
      · refine ⟨("Brightness:").data,
          List.mem_append_right _ (List.mem_singleton.mpr rfl), ?_⟩
        rw [regexSearch_eq_litOccurs _
          (hdots _ (List.mem_append_right _ (List.mem_singleton.mpr rfl)))]
        exact (litOccurs_iff _ _).mpr ⟨u, v, rfl⟩

theorem spec_c4_w :
    patternsOk [toL "eDP-1"] = true
    ∧ ∀ l, lineKept [toL "eDP-1"] l = true ↔
        ((∃ n ∈ [toL "eDP-1"], ∃ u v, l = u ++ (n ++ (" connected").data) ++ v)
         ∨ ∃ u v, l = u ++ ("Brightness:").data ++ v) :=
  spec_c4 [toL "eDP-1"] (by decide)
